import Mathlib

/-!
Verification development for the pyRiemann clustering / channel-selection
subsystem (`pyriemann/clustering.py`, `pyriemann/channelselection.py`).

The source is shallowly embedded over exact rational arithmetic.  External
collaborators (the `distance`/`mean` functions of the Metric Provider, the
sklearn `_init_centroids`, the numpy pseudo-random generator and `numpy.std`) are taken
as explicit function parameters: the embedded algorithms are faithful to the
control flow and data flow of the Python source for every instantiation of
those parameters.
-/

set_option autoImplicit false

namespace PyRiemann

/-- A matrix is a list of rows of rationals (the covariance matrix of one trial,
or one centroid). -/
abbrev Mat := List (List ℚ)

/-! ### Generic numpy-style helpers -/

/-- Maximum of a list of rationals (`numpy.max` on a non-empty array;
junk value `0` on the empty list, which never occurs in the source). -/
def maxD : List ℚ → ℚ
  | [] => 0
  | [a] => a
  | a :: b :: t => max a (maxD (b :: t))

/-- First index attaining the maximum (`numpy.argmax`): index `0` wins
ties against the tail, matching the numpy first-occurrence rule. -/
def argmaxIdx : List ℚ → ℕ
  | [] => 0
  | [_] => 0
  | a :: b :: t => if a < maxD (b :: t) then argmaxIdx (b :: t) + 1 else 0

/-- Minimum of a list of rationals (`numpy.min`; junk `0` on `[]`). -/
def minD : List ℚ → ℚ
  | [] => 0
  | [a] => a
  | a :: b :: t => min a (minD (b :: t))

/-- First index attaining the minimum (`numpy.argmin`). -/
def argminIdx : List ℚ → ℕ
  | [] => 0
  | [_] => 0
  | a :: b :: t => if minD (b :: t) < a then argminIdx (b :: t) + 1 else 0

/-- Embedding of `numpy.unique`: sorted list of the distinct values. -/
def npUnique (y : List ℤ) : List ℤ :=
  List.insertionSort (fun a b => a ≤ b) y.dedup

/-- Embedding of `numpy.mean` over exact rationals (`0` on `[]`, where numpy yields nan;
the empty case is never reached in the verified paths). -/
def qmean (d : List ℚ) : ℚ := d.sum / d.length

/-- Population variance, `numpy.var`.  Used to instantiate the abstract
standard-deviation parameter in concrete witnesses: `numpy.std d = 0` iff
`qvar d = 0`, which is the only fact the claims need. -/
def qvar (d : List ℚ) : ℚ :=
  qmean (d.map (fun t => (t - qmean d) * (t - qmean d)))

/-- Embedding of `numpy.mean(labels == old_labels)`: fraction of positions where the two
label vectors agree. -/
def matchFrac (a b : List ℤ) : ℚ :=
  (((a.zip b).filter (fun p => p.1 == p.2)).length : ℚ) / a.length

/-- Embedding of `X[y == c]`: the trials whose label equals `c`, in order. -/
def selectEq (X : List Mat) (y : List ℤ) (c : ℤ) : List Mat :=
  ((X.zip y).filter (fun p => p.2 == c)).map (fun p => p.1)

/-- Embedding of `MDM._predict_distances(X)`: the trials × centroids distance matrix,
given the distance function of the Metric Provider. -/
def distMatrix (distF : Mat → Mat → ℚ) (cov : List Mat) (X : List Mat) :
    List (List ℚ) :=
  X.map (fun M => cov.map (fun C => distF M C))

/-- Embedding of `mdm.classes[dist.argmin(axis=1)]`: nearest-centroid label per trial. -/
def predictLabels (classes : List ℤ) (dist : List (List ℚ)) : List ℤ :=
  dist.map (fun row => classes.getD (argminIdx row) 0)

/-- Embedding of `MDM.fit(X, y)` per its documented contract: one centroid per distinct
label (labels sorted by `numpy.unique`), each computed by the external
Metric-Provider mean `meanF` over the trials bearing that label. -/
def mdmFitMeans (meanF : List Mat → Mat) (X : List Mat) (y : List ℤ) :
    List Mat :=
  (npUnique y).map (fun c => meanF (selectEq X y c))

/-- Embedding of `M[:, sub][sub, :]`: the submatrix of `M` with rows and columns
restricted to the index list `sub`, in the order of `sub`. -/
def restrict (M : Mat) (sub : List ℕ) : Mat :=
  sub.map (fun r => sub.map (fun c => (M.getD r []).getD c 0))

/-! ### Channel Selector (`ElectrodeSelection`, channelselection.py) -/

/-- Mutable attributes of an `ElectrodeSelection` instance that the claims
observe: `nelec` (set in `__init__`), the selected subset `subelec`
(`None` until `fit`), the distance log `dist` (initialised to `[]` in
`__init__` only, hence shared across `fit` calls), and the stored class
centroids `covmeans`. -/
structure ESState where
  nelec : ℕ
  subelec : Option (List ℕ)
  dist : List ℚ
  covmeans : List Mat
  deriving DecidableEq

/-- Embedding of `ElectrodeSelection.__init__(nelec)`. -/
def esInit (nelec : ℕ) : ESState := ⟨nelec, none, [], []⟩

/-- Score of the candidate subset `sub`: the double loop
`for i in range(len(covmeans)): for j in range(i+1, len(covmeans)):
di[idx] += distance(covmeans[i][:, sub][sub, :], covmeans[j][:, sub][sub, :])`. -/
def pairScore (d : Mat → Mat → ℚ) (cm : List Mat) (sub : List ℕ) : ℚ :=
  ((List.range cm.length).map (fun i =>
    (((List.range cm.length).drop (i + 1)).map (fun j =>
      d (restrict (cm.getD i []) sub) (restrict (cm.getD j []) sub))).sum)).sum

/-- The per-step score vector `di`: one candidate per position of the
working subset, the candidate being the subset with that position removed
(`sub = self.subelec[:]; sub.pop(idx)`). -/
def stepScores (d : Mat → Mat → ℚ) (cm : List Mat) (sub : List ℕ) :
    List ℚ :=
  (List.range sub.length).map (fun idx => pairScore d cm (sub.eraseIdx idx))

/-- The backward-elimination `while` loop of `ElectrodeSelection.fit`,
written with an explicit fuel.  The loop removes exactly one index per
iteration, so fuel `sub.length` always suffices: the fuel-exhaustion
branch is unreachable from `esLoop` (see `esGo_fuel_irrel`). -/
def esGo (d : Mat → Mat → ℚ) (cm : List Mat) (nelec : ℕ) :
    ℕ → List ℕ → List ℚ → List ℕ × List ℚ
  | fuel, sub, dist =>
    if sub.length ≤ nelec then (sub, dist)
    else
      match fuel with
      | 0 => (sub, dist)
      | f + 1 =>
        let di := stepScores d cm sub
        let torm := argmaxIdx di
        esGo d cm nelec f (sub.eraseIdx torm) (dist ++ [maxD di])

/-- Embedding of `while len(self.subelec) > self.nelec: ...` -/
def esLoop (d : Mat → Mat → ℚ) (cm : List Mat) (nelec : ℕ)
    (sub : List ℕ) (dist : List ℚ) : List ℕ × List ℚ :=
  esGo d cm nelec sub.length sub dist

/-- Embedding of `ElectrodeSelection.fit`: the class centroids `cm` are produced by the
external Centroid Classifier (`mdm.fit(X, y)`), re-created on every call;
`subelec` restarts from the identity subset `range(0, Ne, 1)`; the distance
log continues from its current value (it is never reset in `fit`). -/
def esFit (d : Mat → Mat → ℚ) (cm : List Mat) (st : ESState) : ESState :=
  let Ne := (cm.headD []).length
  let r := esLoop d cm st.nelec (List.range Ne) st.dist
  { nelec := st.nelec, subelec := some r.1, dist := r.2, covmeans := cm }

/-- Embedding of `ElectrodeSelection.transform`: defaults `subelec` to the identity
subset matching the width of the input when `fit` has not run, then reduces every
trial matrix to the selected rows and columns. -/
def esTransform (st : ESState) (X : List Mat) : ESState × List Mat :=
  let sub := match st.subelec with
    | none => List.range ((X.headD []).length)
    | some s => s
  ({ st with subelec := some sub }, X.map (fun M => restrict M sub))

/-! ### Cluster Engine (`Kmeans`, clustering.py) -/

/-- The `init` parameter of `Kmeans`: the string `random`, the string
`k-means plus plus`, or an explicit centroid array. -/
inductive InitKind where
  | random : InitKind
  | kmeanspp : InitKind
  | arr : List Mat → InitKind
  deriving DecidableEq

/-- Result of one k-means run: `labels`, `inertia`, and the final fitted
`mdm` (its classes and centroids). -/
structure KmRes where
  labels : List ℤ
  inertia : ℚ
  classes : List ℤ
  covmeans : List Mat
  deriving DecidableEq

instance : Inhabited KmRes := ⟨⟨[], 0, [], []⟩⟩

/-- Embedding of `numpy.random.seed(s)`: the global generator state after explicit
seeding is a deterministic function of the seed alone. -/
def npSeed (s : ℕ) : ℕ := s

/-- Embedding of `numpy.random.randint(iinfo(int32).max, size=n)`: a deterministic
sequence of per-restart seeds drawn from the (seeded) global generator
state.  Modelled as a simple deterministic derivation; the claims depend
only on determinism, which the numpy generator guarantees. -/
def npRandint (g : ℕ) (n : ℕ) : List ℕ :=
  (List.range n).map (fun i => g + i)

/-- Embedding of `inertia = sum([sum(dist[labels == mdm.classes[i], i])
for i in range(len(mdm.classes))])`. -/
def inertiaOf (classes : List ℤ) (dist : List (List ℚ)) (labels : List ℤ) :
    ℚ :=
  ((List.range classes.length).map (fun i =>
    (((List.range labels.length).filter (fun t =>
        labels.getD t 0 == classes.getD i 0)).map (fun t =>
        (dist.getD t []).getD i 0)).sum)).sum

/-- The `while True` loop of `_fit_single`, with an explicit fuel.  Each
pass increments `k` and the loop necessarily breaks once `k > max_iter`,
so fuel `max_iter` (from the initial `k = 0`) always suffices: the
fuel-exhaustion branch is unreachable from `kmLoop` (see `kmGo_spec`).
`stepF` is one body pass: `mdm.fit(X, old_labels); dist = ...;
labels = mdm.classes[dist.argmin(axis=1)]`, returning the new labels and
the auxiliary data (`dist` and the fitted mdm) the body computed. -/
def kmGo {A : Type} (stepF : List ℤ → List ℤ × A) (maxIter : ℕ) (tol : ℚ) :
    ℕ → List ℤ → ℕ → List ℤ × A × ℕ
  | fuel, labels, k =>
    let r := stepF labels
    let k' := k + 1
    if maxIter < k' ∨ 1 - tol < matchFrac r.1 labels then (r.1, r.2, k')
    else
      match fuel with
      | 0 => (r.1, r.2, k')
      | fuel + 1 => kmGo stepF maxIter tol fuel r.1 k'

/-- The `_fit_single` iteration loop entered with `k = 0`. -/
def kmLoop {A : Type} (stepF : List ℤ → List ℤ × A) (maxIter : ℕ)
    (tol : ℚ) (labels : List ℤ) : List ℤ × A × ℕ :=
  kmGo stepF maxIter tol maxIter labels 0

/-- Embedding of `_fit_single(X, y, n_clusters, init, random_state, metric, max_iter,
tol)`.  `initC` is the external sklearn `_init_centroids` (a deterministic
function of the init strategy, `n_clusters`, the seed and the data);
`meanF`/`distF` are the mean and distance of the Metric Provider. -/
def fitSingle (meanF : List Mat → Mat) (distF : Mat → Mat → ℚ)
    (initC : InitKind → ℕ → Option ℕ → List Mat → List Mat)
    (X : List Mat) (y : Option (List ℤ)) (nClusters : ℕ) (init : InitKind)
    (seed : Option ℕ) (maxIter : ℕ) (tol : ℚ) : KmRes :=
  let covmeans0 := initC init nClusters seed X
  let classes0 : List ℤ := match y with
    | some ys => npUnique ys
    | none => (List.range nClusters).map (fun i => (i : ℤ))
  let labels0 := predictLabels classes0 (distMatrix distF covmeans0 X)
  let stepF := fun (old : List ℤ) =>
    let classes := npUnique old
    let cov := mdmFitMeans meanF X old
    let dist := distMatrix distF cov X
    (predictLabels classes dist, (dist, classes, cov))
  let r := kmLoop stepF maxIter tol labels0
  let labels := r.1
  let dist := r.2.1.1
  let classes := r.2.1.2.1
  let cov := r.2.1.2.2
  ⟨labels, inertiaOf classes dist labels, classes, cov⟩

/-- Embedding of `Kmeans.fit`.  `ambient` is the state of the numpy global random
generator before the call; `numpy.random.seed(self.seed)` replaces it when
an explicit seed is given.  The `n_jobs == 1` branch reproduces the source
verbatim: `res = []` is overwritten by `res = _fit_single(...)` on every
pass of the `for` loop, and `zip(res)` (not `zip(*res)`) then unpacks the
three fields of the *last* run as one-element tuples, over which
`numpy.argmin` returns `0` — so that branch yields the last restart. -/
def kmeansFit (meanF : List Mat → Mat) (distF : Mat → Mat → ℚ)
    (initC : InitKind → ℕ → Option ℕ → List Mat → List Mat)
    (nClusters : ℕ) (maxIter : ℕ) (seed : Option ℕ) (init : InitKind)
    (nInit : ℕ) (nJobs : ℤ) (tol : ℚ) (ambient : ℕ)
    (X : List Mat) (y : Option (List ℤ)) : KmRes :=
  if init ≠ InitKind.random ∨ nInit = 1 then
    fitSingle meanF distF initC X y nClusters init seed maxIter tol
  else
    let g := match seed with
      | some s => npSeed s
      | none => ambient
    let seeds := npRandint g nInit
    if nJobs = 1 then
      let res := seeds.foldl
        (fun _ s =>
          fitSingle meanF distF initC X y nClusters init (some s) maxIter
            tol)
        default
      let labels := [res.labels]
      let inertia := [res.inertia]
      let mdm := [(res.classes, res.covmeans)]
      let best := argminIdx inertia
      ⟨labels.getD best [], inertia.getD best 0,
        (mdm.getD best ([], [])).1, (mdm.getD best ([], [])).2⟩
    else
      let res := seeds.map (fun s =>
        fitSingle meanF distF initC X y nClusters init (some s) maxIter
          tol)
      let inertia := res.map (fun r => r.inertia)
      let best := argminIdx inertia
      res.getD best default

/-! ### Per-Class Cluster Transform (`KmeansPerClassTransform`) -/

/-- The persistent attribute the claims observe: `covmeans`, initialised
to `[]` in `__init__` only and extended by every `fit`. -/
structure KPCTState where
  covmeans : List Mat
  deriving DecidableEq

/-- Embedding of `KmeansPerClassTransform.__init__`. -/
def kpctInit : KPCTState := ⟨[]⟩

/-- Embedding of `KmeansPerClassTransform.fit`: for each class `c` of `numpy.unique(y)`
in order, run the inner `Kmeans` on `X[y == c]` and extend `covmeans` with
the resulting centroids.  `kmC` is the composite
`self.km.fit(...); self.km.centroids()` — a function of the sub-trial set
only, since `Kmeans.fit` rebuilds its state from scratch. -/
def kpctFit (kmC : List Mat → List Mat) (X : List Mat) (y : List ℤ)
    (st : KPCTState) : KPCTState :=
  ⟨(npUnique y).foldl (fun acc c => acc ++ kmC (selectEq X y c))
    st.covmeans⟩

/-! ### Potato (`Potato`, clustering.py) -/

/-- Python runtime errors the embedding distinguishes. -/
inductive PyError where
  | unboundLocal : PyError
  deriving DecidableEq

/-- Attributes of a `Potato` instance after `fit`, plus the acceptance
mask (the local `y_old` of `fit`, exposed here because the claims
quantify over it): `_mean`, `_std`, the single centroid held by `_mdm`,
and the mask.  The mask is an `Option`: `none` models the Python local
`y_old` not having been assigned yet, which is the state throughout a
call whose `y` argument was not `None`. -/
structure PotatoState where
  mean : ℚ
  std : ℚ
  centroid : Mat
  mask : Option (List ℚ)
  deriving DecidableEq

/-- One round of the `Potato.fit` loop body, returning
`(self._mean, self._std, centroid, y)`:
`ix = (y_old == 1); self._mdm.fit(X[ix], y_old[ix]);
y = zeros(len(X)); d = log(self._mdm.transform(X[ix]));
self._mean = mean(d); self._std = std(d);
y[ix] = self._get_z_score(d) < self.threshold`.
`cF` models the external single-class `MDM.fit` (one centroid of the
accepted trials), `ldF` the external log-distance
`log(distance(centroid, ·))`, and `stdF` the external `numpy.std`. -/
def potatoRoundD (cF : List Mat → Mat) (ldF : Mat → Mat → ℚ)
    (stdF : List ℚ → ℚ) (thr : ℚ) (X : List Mat) (yOld : List ℚ) :
    ℚ × ℚ × Mat × List ℚ :=
  let ix := (List.range X.length).filter (fun i =>
    decide (yOld.getD i 0 = 1))
  let acc := ix.map (fun i => X.getD i [])
  let C := cF acc
  let d := acc.map (fun M => ldF C M)
  let m := qmean d
  let s := stdF d
  let z := d.map (fun t => (t - m) / s)
  let pairs := ix.zip z
  let y := (List.range X.length).map (fun i =>
    match pairs.find? (fun p => p.1 == i) with
    | some p => if p.2 < thr then (1 : ℚ) else 0
    | none => 0)
  (m, s, C, y)

/-- The acceptance mask computed by one round of `Potato.fit`. -/
def potatoRound (cF : List Mat → Mat) (ldF : Mat → Mat → ℚ)
    (stdF : List ℚ → ℚ) (thr : ℚ) (X : List Mat) (yOld : List ℚ) :
    List ℚ :=
  (potatoRoundD cF ldF stdF thr X yOld).2.2.2

/-- The `for n_iter in range(self.n_iter_max)` loop of `Potato.fit`.
The body first reads `y_old` (`ix = (y_old == 1)`), raising
`UnboundLocalError` when it was never assigned; otherwise it runs one
round, breaks when the mask is unchanged, and else sets `y_old = y` and
continues.  With `n_iter_max = 0` the body never runs. -/
def potatoGo (cF : List Mat → Mat) (ldF : Mat → Mat → ℚ)
    (stdF : List ℚ → ℚ) (thr : ℚ) (X : List Mat) :
    ℕ → PotatoState → Except PyError PotatoState
  | 0, st => Except.ok st
  | n + 1, st =>
    match st.mask with
    | none => Except.error PyError.unboundLocal
    | some yOld =>
      let r := potatoRoundD cF ldF stdF thr X yOld
      if r.2.2.2 = yOld then Except.ok ⟨r.1, r.2.1, r.2.2.1, some r.2.2.2⟩
      else potatoGo cF ldF stdF thr X n ⟨r.1, r.2.1, r.2.2.1, some r.2.2.2⟩

/-- Distinguishes a normal return from a raised error. -/
def exceptIsOk {ε α : Type} : Except ε α → Bool
  | Except.ok _ => true
  | Except.error _ => false

/-- Embedding of `Potato.fit(X, y)`.  The local `y_old` is assigned only
under `if y is None`; the first statement of the loop body
(`ix = (y_old == 1)`) reads it, so the `UnboundLocalError` for a call
with `y` not `None` is raised by the first loop iteration — and such a
call returns normally when `n_iter_max = 0`, since `range(0)` runs the
body zero times. -/
def potatoFit (cF : List Mat → Mat) (ldF : Mat → Mat → ℚ)
    (stdF : List ℚ → ℚ) (thr : ℚ) (nIterMax : ℕ) (X : List Mat)
    (y : Option (List ℚ)) : Except PyError PotatoState :=
  let yOld0 : Option (List ℚ) := match y with
    | none => some (List.replicate X.length 1)
    | some _ => none
  potatoGo cF ldF stdF thr X nIterMax ⟨0, 0, [], yOld0⟩

/-! ### Concrete instantiations of the external collaborators, used by
witnesses and counterexamples -/

/-- A concrete Metric-Provider distance on 1×1 matrices: squared
difference of the single entries. -/
def demoDist (A B : Mat) : ℚ :=
  ((A.headD []).headD 0 - (B.headD []).headD 0) *
    ((A.headD []).headD 0 - (B.headD []).headD 0)

/-- A concrete Metric-Provider mean on 1×1 matrices: arithmetic mean of
the single entries. -/
def demoMean (l : List Mat) : Mat :=
  [[(l.map (fun M => (M.headD []).headD 0)).sum / l.length]]

/-- A concrete deterministic `_init_centroids`: the derived seed `0` picks
the centroid pair `[[3]], [[2]]`, any other seed picks `[[1]], [[3]]`. -/
def demoInitC : InitKind → ℕ → Option ℕ → List Mat → List Mat :=
  fun _ _ s _ => if s = some 0 then [[[3]], [[2]]] else [[[1]], [[3]]]

/-- Three 1×1 trials with entries 0, 2, 3. -/
def demoX : List Mat := [[[0]], [[2]], [[3]]]

/-- Two concrete 2×2 class centroids. -/
def demoCm : List Mat := [[[1, 0], [0, 1]], [[3, 1], [1, 3]]]

/-- A concrete distance on same-shape matrices: sum of squared entrywise
differences. -/
def demoDist2 (A B : Mat) : ℚ :=
  ((A.zip B).map (fun p =>
    ((p.1.zip p.2).map (fun q => (q.1 - q.2) * (q.1 - q.2))).sum)).sum

/-- A concrete single-class centroid: the first accepted trial. -/
def demoCf (l : List Mat) : Mat := l.headD []

/-- A concrete log-distance that is constant: every trial is at
log-distance 5 from the centroid (the zero-variance situation). -/
def demoLd5 (_C : Mat) (_M : Mat) : ℚ := 5

/-- A concrete log-distance that is constant 7. -/
def demoLd7 (_C : Mat) (_M : Mat) : ℚ := 7

/-- A concrete stand-in for `numpy.std` with the only property the claims
use: it vanishes exactly on zero-variance data. -/
def demoStd (d : List ℚ) : ℚ := qvar d

/-- Three identical 1×1 trials: the degenerate zero-variance input. -/
def degX : List Mat := [[[2]], [[2]], [[2]]]

/-! ### Lemmas: first-argmax (`numpy.argmax`) -/

theorem argmaxIdx_lt : ∀ (l : List ℚ), l ≠ [] → argmaxIdx l < l.length
  | [a], _ => by simp [argmaxIdx]
  | a :: b :: t, _ => by
    simp only [argmaxIdx]
    split
    · have ih := argmaxIdx_lt (b :: t) (by simp)
      simpa using Nat.succ_lt_succ ih
    · simp

theorem getD_argmaxIdx :
    ∀ (l : List ℚ), l ≠ [] → l.getD (argmaxIdx l) 0 = maxD l
  | [a], _ => by simp [argmaxIdx, maxD]
  | a :: b :: t, _ => by
    simp only [argmaxIdx, maxD]
    split
    · next h =>
      rw [List.getD_cons_succ, getD_argmaxIdx (b :: t) (by simp),
        max_eq_right (le_of_lt h)]
    · next h =>
      rw [List.getD_cons_zero, max_eq_left (not_lt.mp h)]

theorem getD_le_maxD :
    ∀ (l : List ℚ) (i : ℕ), i < l.length → l.getD i 0 ≤ maxD l
  | [a], i, h => by
    have hi : i = 0 := by simpa using h
    subst hi
    simp [maxD]
  | a :: b :: t, 0, _ => by simp [maxD]
  | a :: b :: t, i + 1, h => by
    have ih := getD_le_maxD (b :: t) i (by simpa using h)
    calc (a :: b :: t).getD (i + 1) 0 = (b :: t).getD i 0 :=
          List.getD_cons_succ ..
      _ ≤ maxD (b :: t) := ih
      _ ≤ maxD (a :: b :: t) := by simp [maxD]

theorem getD_lt_maxD_of_lt_argmaxIdx :
    ∀ (l : List ℚ) (i : ℕ), i < argmaxIdx l → l.getD i 0 < maxD l
  | [], i, h => by simp [argmaxIdx] at h
  | [a], i, h => by simp [argmaxIdx] at h
  | a :: b :: t, i, h => by
    simp only [argmaxIdx] at h
    split at h
    · next hlt =>
      match i with
      | 0 =>
        rw [List.getD_cons_zero]
        calc a < maxD (b :: t) := hlt
          _ ≤ maxD (a :: b :: t) := by simp [maxD]
      | j + 1 =>
        have ih := getD_lt_maxD_of_lt_argmaxIdx (b :: t) j
          (Nat.lt_of_succ_lt_succ h)
        rw [List.getD_cons_succ]
        calc (b :: t).getD j 0 < maxD (b :: t) := ih
          _ ≤ maxD (a :: b :: t) := by simp [maxD]
    · omega

/-! ### Lemmas: the backward-elimination loop -/

theorem stepScores_length (d : Mat → Mat → ℚ) (cm : List Mat)
    (sub : List ℕ) : (stepScores d cm sub).length = sub.length := by
  simp [stepScores]

theorem esGo_stop (d : Mat → Mat → ℚ) (cm : List Mat) (nelec : ℕ)
    (fuel : ℕ) (sub : List ℕ) (dist : List ℚ)
    (h : sub.length ≤ nelec) :
    esGo d cm nelec fuel sub dist = (sub, dist) := by
  cases fuel <;> simp only [esGo, if_pos h]

theorem esGo_step (d : Mat → Mat → ℚ) (cm : List Mat) (nelec : ℕ)
    (f : ℕ) (sub : List ℕ) (dist : List ℚ)
    (h : ¬ sub.length ≤ nelec) :
    esGo d cm nelec (f + 1) sub dist =
      esGo d cm nelec f
        (sub.eraseIdx (argmaxIdx (stepScores d cm sub)))
        (dist ++ [maxD (stepScores d cm sub)]) := by
  simp only [esGo, if_neg h]

theorem esGo_spec (d : Mat → Mat → ℚ) (cm : List Mat) (nelec N : ℕ) :
    ∀ (fuel : ℕ) (sub : List ℕ) (dist : List ℚ),
    sub.length - nelec ≤ fuel → nelec ≤ sub.length → sub.Nodup →
    (∀ x ∈ sub, x < N) →
    (esGo d cm nelec fuel sub dist).1.length = nelec ∧
      (esGo d cm nelec fuel sub dist).1.Nodup ∧
      (∀ x ∈ (esGo d cm nelec fuel sub dist).1, x < N) ∧
      (esGo d cm nelec fuel sub dist).2.length =
        dist.length + (sub.length - nelec) := by
  intro fuel
  induction fuel with
  | zero =>
    intro sub dist hfuel hle hnd hmem
    have hlen : sub.length = nelec := by omega
    simp only [esGo, if_pos (le_of_eq hlen)]
    exact ⟨hlen, hnd, hmem, by omega⟩
  | succ f ih =>
    intro sub dist hfuel hle hnd hmem
    by_cases hstop : sub.length ≤ nelec
    · have hlen : sub.length = nelec := le_antisymm hstop hle
      simp only [esGo, if_pos hstop]
      exact ⟨hlen, hnd, hmem, by omega⟩
    · have hlt : nelec < sub.length := not_le.mp hstop
      have hne : stepScores d cm sub ≠ [] := by
        have : (stepScores d cm sub).length ≠ 0 := by
          rw [stepScores_length]; omega
        exact fun hnil => this (by simp [hnil])
      have htorm : argmaxIdx (stepScores d cm sub) < sub.length := by
        have := argmaxIdx_lt _ hne
        rwa [stepScores_length] at this
      have herase :
          (sub.eraseIdx (argmaxIdx (stepScores d cm sub))).length =
            sub.length - 1 := List.length_eraseIdx_of_lt htorm
      have hsl : List.Sublist
          (sub.eraseIdx (argmaxIdx (stepScores d cm sub))) sub :=
        List.eraseIdx_sublist ..
      have ih' := ih (sub.eraseIdx (argmaxIdx (stepScores d cm sub)))
        (dist ++ [maxD (stepScores d cm sub)])
        (by rw [herase]; omega) (by omega)
        (hnd.sublist hsl)
        (fun x hx => hmem x (hsl.subset hx))
      simp only [esGo, if_neg hstop]
      refine ⟨ih'.1, ih'.2.1, ih'.2.2.1, ?_⟩
      rw [ih'.2.2.2, herase, List.length_append]
      simp only [List.length_cons, List.length_nil]
      omega

theorem esGo_fuel_irrel (d : Mat → Mat → ℚ) (cm : List Mat) (nelec : ℕ) :
    ∀ (f₁ f₂ : ℕ) (sub : List ℕ) (dist : List ℚ),
    sub.length - nelec ≤ f₁ → sub.length - nelec ≤ f₂ →
    esGo d cm nelec f₁ sub dist = esGo d cm nelec f₂ sub dist := by
  intro f₁
  induction f₁ with
  | zero =>
    intro f₂ sub dist h1 _
    have hstop : sub.length ≤ nelec := by omega
    cases f₂ <;> simp only [esGo, if_pos hstop]
  | succ f ih =>
    intro f₂ sub dist h1 h2
    by_cases hstop : sub.length ≤ nelec
    · cases f₂ <;> simp only [esGo, if_pos hstop]
    · have hlt : nelec < sub.length := not_le.mp hstop
      have hne : stepScores d cm sub ≠ [] := by
        have : (stepScores d cm sub).length ≠ 0 := by
          rw [stepScores_length]; omega
        exact fun hnil => this (by simp [hnil])
      have htorm : argmaxIdx (stepScores d cm sub) < sub.length := by
        have := argmaxIdx_lt _ hne
        rwa [stepScores_length] at this
      have herase :
          (sub.eraseIdx (argmaxIdx (stepScores d cm sub))).length =
            sub.length - 1 := List.length_eraseIdx_of_lt htorm
      obtain ⟨g, rfl⟩ : ∃ g, f₂ = g + 1 := ⟨f₂ - 1, by omega⟩
      simp only [esGo, if_neg hstop]
      exact ih g _ _ (by omega) (by omega)

theorem esGo_dist_append (d : Mat → Mat → ℚ) (cm : List Mat)
    (nelec : ℕ) :
    ∀ (fuel : ℕ) (sub : List ℕ) (dist : List ℚ),
    esGo d cm nelec fuel sub dist =
      ((esGo d cm nelec fuel sub []).1,
        dist ++ (esGo d cm nelec fuel sub []).2) := by
  intro fuel
  induction fuel with
  | zero =>
    intro sub dist
    by_cases hstop : sub.length ≤ nelec <;>
      simp [esGo, hstop]
  | succ f ih =>
    intro sub dist
    by_cases hstop : sub.length ≤ nelec
    · simp [esGo, hstop]
    · simp only [esGo, if_neg hstop]
      rw [ih _ (dist ++ [maxD (stepScores d cm sub)]),
        ih _ ([] ++ [maxD (stepScores d cm sub)])]
      simp [List.append_assoc]

/-! ### Lemmas: restriction to the identity subset -/

theorem map_range_getD {α : Type} (row : List α) (d : α) :
    (List.range row.length).map (fun c => row.getD c d) = row := by
  apply List.ext_getElem (by simp)
  intro i h1 h2
  simp only [List.getElem_map, List.getElem_range]
  exact List.getD_eq_getElem row d h2

theorem restrict_range (M : Mat) (n : ℕ) (hM : M.length = n)
    (hrow : ∀ row ∈ M, row.length = n) :
    restrict M (List.range n) = M := by
  unfold restrict
  apply List.ext_getElem (by simp [hM])
  intro i h1 h2
  simp only [List.getElem_map, List.getElem_range]
  rw [List.getD_eq_getElem M [] h2]
  have hlen : M[i].length = n := hrow _ (List.getElem_mem h2)
  rw [← hlen]
  exact map_range_getD M[i] 0

/-! ### Lemma: the per-class transform extends `covmeans` -/

theorem foldl_extend (f : ℤ → List Mat) :
    ∀ (cs : List ℤ) (a : List Mat),
    cs.foldl (fun acc c => acc ++ f c) a =
      a ++ cs.foldl (fun acc c => acc ++ f c) [] := by
  intro cs
  induction cs with
  | nil => intro a; simp
  | cons c cs ih =>
    intro a
    simp only [List.foldl_cons]
    rw [ih (a ++ f c), ih ([] ++ f c)]
    simp [List.append_assoc]

/-! ### Claims about the Channel Selector and fit-call accumulation -/

/-- Claim C2: for every trial set (class-centroid set of channel dimension
`n`) and every `target_count ≤ n`, after `ElectrodeSelection.fit` on a
fresh instance the channel subset has exactly `target_count` distinct
indices, all in `[0, n)`, and the distance log written by that fit has
length exactly `n - target_count`. -/
theorem C2_subset_size_and_log_length (d : Mat → Mat → ℚ)
    (cm : List Mat) (nelec : ℕ)
    (h : nelec ≤ (cm.headD []).length) :
    ((esFit d cm (esInit nelec)).subelec.getD []).length = nelec ∧
      ((esFit d cm (esInit nelec)).subelec.getD []).Nodup ∧
      (∀ x ∈ (esFit d cm (esInit nelec)).subelec.getD [],
        x < (cm.headD []).length) ∧
      (esFit d cm (esInit nelec)).dist.length =
        (cm.headD []).length - nelec := by
  have hspec := esGo_spec d cm nelec ((cm.headD []).length)
    (List.range ((cm.headD []).length)).length
    (List.range ((cm.headD []).length)) []
    (by simp) (by simpa using h) (List.nodup_range _)
    (fun x hx => List.mem_range.mp hx)
  simp only [List.length_range, List.length_nil, Nat.zero_add] at hspec
  simp only [esFit, esInit, esLoop, List.length_range]
  exact ⟨hspec.1, hspec.2.1, hspec.2.2.1, hspec.2.2.2⟩

/-- Witness for C2 at a concrete input: two 2×2 centroids,
`target_count = 1`. -/
theorem C2_subset_size_and_log_length_witness :
    (1 ≤ ((demoCm.headD []).length)) ∧
      (((esFit demoDist2 demoCm (esInit 1)).subelec.getD []).length = 1 ∧
        ((esFit demoDist2 demoCm (esInit 1)).subelec.getD []).Nodup ∧
        (∀ x ∈ (esFit demoDist2 demoCm (esInit 1)).subelec.getD [],
          x < (demoCm.headD []).length) ∧
        (esFit demoDist2 demoCm (esInit 1)).dist.length =
          (demoCm.headD []).length - 1) :=
  ⟨by decide, C2_subset_size_and_log_length demoDist2 demoCm 1 (by decide)⟩

/-- Claim C6: at every elimination step (working subset still larger than
the target), the candidate scores are the pairwise-centroid-distance sums
over each one-position-removed subset, the step selects the first index
achieving the maximum score, appends that maximum to the distance log and
replaces the working subset by the chosen candidate. -/
theorem C6_elimination_step (d : Mat → Mat → ℚ) (cm : List Mat)
    (nelec : ℕ) (sub : List ℕ) (dist : List ℚ)
    (h : nelec < sub.length) :
    esLoop d cm nelec sub dist =
        esLoop d cm nelec (sub.eraseIdx (argmaxIdx (stepScores d cm sub)))
          (dist ++ [maxD (stepScores d cm sub)]) ∧
      stepScores d cm sub = (List.range sub.length).map
        (fun idx => pairScore d cm (sub.eraseIdx idx)) ∧
      argmaxIdx (stepScores d cm sub) < sub.length ∧
      (stepScores d cm sub).getD (argmaxIdx (stepScores d cm sub)) 0 =
        maxD (stepScores d cm sub) ∧
      (∀ i < argmaxIdx (stepScores d cm sub),
        (stepScores d cm sub).getD i 0 < maxD (stepScores d cm sub)) ∧
      (∀ i < (stepScores d cm sub).length,
        (stepScores d cm sub).getD i 0 ≤ maxD (stepScores d cm sub)) := by
  have hne : stepScores d cm sub ≠ [] := by
    have : (stepScores d cm sub).length ≠ 0 := by
      rw [stepScores_length]; omega
    exact fun hnil => this (by simp [hnil])
  have htorm : argmaxIdx (stepScores d cm sub) < sub.length := by
    have := argmaxIdx_lt _ hne
    rwa [stepScores_length] at this
  have herase :
      (sub.eraseIdx (argmaxIdx (stepScores d cm sub))).length =
        sub.length - 1 := List.length_eraseIdx_of_lt htorm
  refine ⟨?_, rfl, htorm, getD_argmaxIdx _ hne,
    fun i hi => getD_lt_maxD_of_lt_argmaxIdx _ i hi,
    fun i hi => getD_le_maxD _ i hi⟩
  have hstop : ¬ sub.length ≤ nelec := not_le.mpr h
  obtain ⟨f, hf⟩ : ∃ f, sub.length = f + 1 := ⟨sub.length - 1, by omega⟩
  simp only [esLoop]
  conv_lhs => rw [hf]
  rw [esGo_step d cm nelec f sub dist hstop]
  exact esGo_fuel_irrel d cm nelec f
    ((sub.eraseIdx (argmaxIdx (stepScores d cm sub))).length) _ _
    (by rw [herase]; omega) (by omega)

/-- Witness for C6 at a concrete input: the full 2-channel subset, target
count 0. -/
theorem C6_elimination_step_witness :
    (0 < ([0, 1] : List ℕ).length) ∧
      (esLoop demoDist2 demoCm 0 [0, 1] [] =
          esLoop demoDist2 demoCm 0
            (([0, 1] : List ℕ).eraseIdx
              (argmaxIdx (stepScores demoDist2 demoCm [0, 1])))
            ([] ++ [maxD (stepScores demoDist2 demoCm [0, 1])]) ∧
        stepScores demoDist2 demoCm [0, 1] =
          (List.range ([0, 1] : List ℕ).length).map
            (fun idx => pairScore demoDist2 demoCm
              (([0, 1] : List ℕ).eraseIdx idx)) ∧
        argmaxIdx (stepScores demoDist2 demoCm [0, 1]) <
          ([0, 1] : List ℕ).length ∧
        (stepScores demoDist2 demoCm [0, 1]).getD
            (argmaxIdx (stepScores demoDist2 demoCm [0, 1])) 0 =
          maxD (stepScores demoDist2 demoCm [0, 1]) ∧
        (∀ i < argmaxIdx (stepScores demoDist2 demoCm [0, 1]),
          (stepScores demoDist2 demoCm [0, 1]).getD i 0 <
            maxD (stepScores demoDist2 demoCm [0, 1])) ∧
        (∀ i < (stepScores demoDist2 demoCm [0, 1]).length,
          (stepScores demoDist2 demoCm [0, 1]).getD i 0 ≤
            maxD (stepScores demoDist2 demoCm [0, 1]))) :=
  ⟨by decide, C6_elimination_step demoDist2 demoCm 0 [0, 1] [] (by decide)⟩

/-- Claim C8: with `target_count ≥ n`, `fit` returns the full identity
subset and appends nothing to the distance log; and `transform` before any
`fit` defaults to the identity subset matching the width of the input, returning the
input matrices unreduced. -/
theorem C8_identity_defaults (d : Mat → Mat → ℚ) (cm : List Mat)
    (st : ESState) (X : List Mat) (n : ℕ)
    (h1 : (cm.headD []).length ≤ st.nelec) (h2 : st.subelec = none)
    (hn : (X.headD []).length = n)
    (hX : ∀ M ∈ X, M.length = n ∧ ∀ row ∈ M, row.length = n) :
    (esFit d cm st).subelec =
        some (List.range ((cm.headD []).length)) ∧
      (esFit d cm st).dist = st.dist ∧
      (esTransform st X).2 = X ∧
      (esTransform st X).1.subelec = some (List.range n) := by
  have hfit :
      esLoop d cm st.nelec (List.range ((cm.headD []).length)) st.dist =
        (List.range ((cm.headD []).length), st.dist) := by
    simp only [esLoop]
    exact esGo_stop d cm st.nelec _ _ _ (by simpa using h1)
  refine ⟨?_, ?_, ?_, ?_⟩
  · simp only [esFit, hfit]
  · simp only [esFit, hfit]
  · simp only [esTransform, h2, hn]
    conv_rhs => rw [← List.map_id X]
    exact List.map_congr_left (fun M hM =>
      restrict_range M n (hX M hM).1 (hX M hM).2)
  · simp only [esTransform, h2, hn]

/-- Witness for C8 at a concrete input: `nelec = 5 ≥ 2` channels, and a
transform on two square 2×2 trials before any fit. -/
theorem C8_identity_defaults_witness :
    ((demoCm.headD []).length ≤ (esInit 5).nelec ∧
        (esInit 5).subelec = none ∧
        ((([[1, 0], [0, 1]], [[2, 1], [1, 2]]) :
          Mat × Mat).1 :: [([[2, 1], [1, 2]] : Mat)]).headD [] ≠ []) ∧
      ((esFit demoDist2 demoCm (esInit 5)).subelec =
          some (List.range ((demoCm.headD []).length)) ∧
        (esFit demoDist2 demoCm (esInit 5)).dist = (esInit 5).dist ∧
        (esTransform (esInit 5)
            [[[1, 0], [0, 1]], [[2, 1], [1, 2]]]).2 =
          [[[1, 0], [0, 1]], [[2, 1], [1, 2]]] ∧
        (esTransform (esInit 5)
            [[[1, 0], [0, 1]], [[2, 1], [1, 2]]]).1.subelec =
          some (List.range 2)) :=
  ⟨⟨by decide, by decide, by decide⟩,
    C8_identity_defaults demoDist2 demoCm (esInit 5)
      [[[1, 0], [0, 1]], [[2, 1], [1, 2]]] 2 (by decide) (by decide)
      (by decide) (by decide)⟩

/-- Counterexample to claim C5 as stated: after a second `fit` call on the
same `ElectrodeSelection` instance with the same inputs, the distance log
is not the log a single fit produces — the entry from the first fit is
still there. -/
theorem C5_diag_not_reset_counterexample :
    (esFit demoDist2 demoCm (esFit demoDist2 demoCm (esInit 1))).dist ≠
      (esFit demoDist2 demoCm (esInit 1)).dist := by
  have h2 : (esFit demoDist2 demoCm
      (esFit demoDist2 demoCm (esInit 1))).dist = [4, 4] := by
    with_unfolding_all rfl
  have h1 : (esFit demoDist2 demoCm (esInit 1)).dist = [4] := by
    with_unfolding_all rfl
  intro h
  rw [h1, h2] at h
  exact absurd (congrArg List.length h) (by decide)

/-- Claim C5 as amended: the channel subset and the class centroids are
recomputed from scratch by every `fit` call, but the distance log of the
Channel Selector and the combined centroid set of the Per-Class transform are
initialised only in `__init__` and accumulate: a `fit` call appends its
fresh entries after whatever the state already holds. -/
theorem C5_diag_accumulation (d : Mat → Mat → ℚ) (cm : List Mat)
    (st : ESState) (kmC : List Mat → List Mat) (X : List Mat)
    (y : List ℤ) (st2 : KPCTState) :
    (esFit d cm st).dist =
        st.dist ++ (esFit d cm { st with dist := [] }).dist ∧
      (esFit d cm st).subelec =
        (esFit d cm { st with dist := [] }).subelec ∧
      (esFit d cm st).covmeans = cm ∧
      (kpctFit kmC X y st2).covmeans =
        st2.covmeans ++ (kpctFit kmC X y kpctInit).covmeans := by
  refine ⟨?_, ?_, rfl, ?_⟩
  · simp only [esFit, esLoop]
    rw [esGo_dist_append d cm st.nelec _ _ st.dist]
  · simp only [esFit, esLoop]
    rw [esGo_dist_append d cm st.nelec _ _ st.dist]
  · simp only [kpctFit, kpctInit]
    exact foldl_extend _ (npUnique y) st2.covmeans

/-! ### Lemmas: the k-means single-run loop -/

theorem kmGo_spec {A : Type} (stepF : List ℤ → List ℤ × A) (mi : ℕ)
    (tol : ℚ) :
    ∀ (fuel k : ℕ) (ls : List ℤ), mi ≤ k + fuel →
    ∃ m, 1 ≤ m ∧
      kmGo stepF mi tol fuel ls k =
        ((fun l => (stepF l).1)^[m] ls,
          (stepF ((fun l => (stepF l).1)^[m - 1] ls)).2, k + m) ∧
      (mi < k + m ∨ 1 - tol <
        matchFrac ((fun l => (stepF l).1)^[m] ls)
          ((fun l => (stepF l).1)^[m - 1] ls)) ∧
      (∀ j, 1 ≤ j → j < m →
        ¬(mi < k + j ∨ 1 - tol <
          matchFrac ((fun l => (stepF l).1)^[j] ls)
            ((fun l => (stepF l).1)^[j - 1] ls))) := by
  intro fuel
  induction fuel with
  | zero =>
    intro k ls hk
    refine ⟨1, le_refl 1, ?_, Or.inl (by omega), fun j hj1 hj2 => by omega⟩
    simp only [kmGo]
    rw [if_pos (Or.inl (by omega))]
    simp
  | succ f ih =>
    intro k ls hk
    have eiter : ∀ q : ℕ, (fun l => (stepF l).1)^[q] ((stepF ls).1) =
        (fun l => (stepF l).1)^[q + 1] ls := by
      intro q
      conv_rhs => rw [Function.iterate_succ_apply]
    by_cases hc : mi < k + 1 ∨ 1 - tol < matchFrac ((stepF ls).1) ls
    · refine ⟨1, le_refl 1, ?_, ?_, fun j hj1 hj2 => by omega⟩
      · simp only [kmGo]
        rw [if_pos hc]
        simp
      · simpa using hc
    · have hk' : mi ≤ (k + 1) + f := by
        rcases Nat.lt_or_ge mi (k + 1) with hlt | hge
        · exact absurd (Or.inl hlt) hc
        · omega
      obtain ⟨m', hm1, heq, hcond, hmin⟩ := ih (k + 1) ((stepF ls).1) hk'
      obtain ⟨p, rfl⟩ : ∃ p, m' = p + 1 := ⟨m' - 1, by omega⟩
      refine ⟨p + 2, by omega, ?_, ?_, ?_⟩
      · simp only [kmGo]
        rw [if_neg hc, heq]
        simp only [Prod.mk.injEq, Nat.add_sub_cancel]
        refine ⟨eiter (p + 1), ?_, by omega⟩
        have h21 : p + 2 - 1 = p + 1 := by omega
        rw [h21, ← eiter p]
      · rcases hcond with hl | hr
        · exact Or.inl (by omega)
        · refine Or.inr ?_
          simp only [Nat.add_sub_cancel] at hr
          rw [eiter (p + 1), eiter p] at hr
          have h21 : p + 2 - 1 = p + 1 := by omega
          rw [h21]
          exact hr
      · intro j hj1 hj2
        match j with
        | 0 => omega
        | 1 =>
          intro hcon
          refine hc ?_
          simpa using hcon
        | q + 2 =>
          intro hcon
          refine hmin (q + 1) (by omega) (by omega) ?_
          rcases hcon with hl | hr
          · exact Or.inl (by omega)
          · refine Or.inr ?_
            rw [Nat.add_sub_cancel, eiter (q + 1), eiter q]
            simpa [Nat.add_sub_cancel] using hr

/-! ### Claims about the Cluster Engine -/

/-- Claim C7: for every single-restart run, the assignment/re-estimation
loop of `_fit_single` terminates — it runs some `m` passes with
`1 ≤ m ≤ max_iter + 1` — and it stops exactly at the first pass at which
either the pass count exceeds `max_iter` or the fraction of unchanged
labels exceeds `1 - tol` (near-total label stability, not a fixed
point). -/
theorem C7_loop_termination_and_stop {A : Type}
    (stepF : List ℤ → List ℤ × A) (mi : ℕ) (tol : ℚ) (ls : List ℤ) :
    1 ≤ (kmLoop stepF mi tol ls).2.2 ∧
      (kmLoop stepF mi tol ls).2.2 ≤ mi + 1 ∧
      kmLoop stepF mi tol ls =
        ((fun l => (stepF l).1)^[(kmLoop stepF mi tol ls).2.2] ls,
          (stepF ((fun l => (stepF l).1)^[(kmLoop stepF mi tol ls).2.2 - 1]
            ls)).2,
          (kmLoop stepF mi tol ls).2.2) ∧
      (mi < (kmLoop stepF mi tol ls).2.2 ∨ 1 - tol <
        matchFrac
          ((fun l => (stepF l).1)^[(kmLoop stepF mi tol ls).2.2] ls)
          ((fun l => (stepF l).1)^[(kmLoop stepF mi tol ls).2.2 - 1] ls)) ∧
      (∀ j, 1 ≤ j → j < (kmLoop stepF mi tol ls).2.2 →
        ¬(mi < j ∨ 1 - tol <
          matchFrac ((fun l => (stepF l).1)^[j] ls)
            ((fun l => (stepF l).1)^[j - 1] ls))) := by
  obtain ⟨m, hm1, heq, hcond, hmin⟩ :=
    kmGo_spec stepF mi tol mi 0 ls (by omega)
  have hm2 : m ≤ mi + 1 := by
    by_contra hgt
    push_neg at hgt
    exact (hmin (m - 1) (by omega) (by omega)) (Or.inl (by omega))
  have hk : (kmLoop stepF mi tol ls).2.2 = m := by
    rw [kmLoop, heq]
    simp
  rw [hk]
  refine ⟨hm1, hm2, ?_, ?_, ?_⟩
  · rw [kmLoop, heq]
    simp
  · simpa using hcond
  · intro j hj1 hj2
    simpa using hmin j hj1 hj2

/-- Witness for C7 at a concrete input: a step that returns its input
labels unchanged, `max_iter = 3`, `tol = 1/2`. -/
theorem C7_loop_termination_and_stop_witness :
    1 ≤ (kmLoop (fun l => (l, ())) 3 (1 / 2) [0]).2.2 ∧
      (kmLoop (fun l => (l, ())) 3 (1 / 2) [0]).2.2 ≤ 3 + 1 ∧
      kmLoop (fun l => (l, ())) 3 (1 / 2) [0] =
        ((fun l => ((fun l => (l, ())) l).1)^[(kmLoop (fun l => (l, ()))
            3 (1 / 2) [0]).2.2] [0],
          ((fun l => (l, ()))
            ((fun l => ((fun l => (l, ())) l).1)^[(kmLoop
              (fun l => (l, ())) 3 (1 / 2) [0]).2.2 - 1] [0])).2,
          (kmLoop (fun l => (l, ())) 3 (1 / 2) [0]).2.2) ∧
      (3 < (kmLoop (fun l => (l, ())) 3 (1 / 2) [0]).2.2 ∨ 1 - 1 / 2 <
        matchFrac
          ((fun l => ((fun l => (l, ())) l).1)^[(kmLoop
            (fun l => (l, ())) 3 (1 / 2) [0]).2.2] [0])
          ((fun l => ((fun l => (l, ())) l).1)^[(kmLoop
            (fun l => (l, ())) 3 (1 / 2) [0]).2.2 - 1] [0])) ∧
      (∀ j, 1 ≤ j → j < (kmLoop (fun l => (l, ())) 3 (1 / 2) [0]).2.2 →
        ¬(3 < j ∨ 1 - 1 / 2 <
          matchFrac ((fun l => ((fun l => (l, ())) l).1)^[j] [0])
            ((fun l => ((fun l => (l, ())) l).1)^[j - 1] [0]))) :=
  C7_loop_termination_and_stop (fun l => (l, ())) 3 (1 / 2) [0]

/-- Claim C9: with the same explicit top-level seed and the same inputs,
two runs of `Kmeans.fit` produce identical labels and identical inertia,
whatever the ambient state of the numpy global generator was before each
run, because `numpy.random.seed(self.seed)` replaces that state and the
per-restart seeds are then derived deterministically. -/
theorem C9_seed_determinism (meanF : List Mat → Mat)
    (distF : Mat → Mat → ℚ)
    (initC : InitKind → ℕ → Option ℕ → List Mat → List Mat)
    (nClusters maxIter : ℕ) (s : ℕ) (init : InitKind) (nInit : ℕ)
    (nJobs : ℤ) (tol : ℚ) (g1 g2 : ℕ) (X : List Mat)
    (y : Option (List ℤ)) :
    (kmeansFit meanF distF initC nClusters maxIter (some s) init nInit
        nJobs tol g1 X y).labels =
      (kmeansFit meanF distF initC nClusters maxIter (some s) init nInit
        nJobs tol g2 X y).labels ∧
    (kmeansFit meanF distF initC nClusters maxIter (some s) init nInit
        nJobs tol g1 X y).inertia =
      (kmeansFit meanF distF initC nClusters maxIter (some s) init nInit
        nJobs tol g2 X y).inertia :=
  ⟨rfl, rfl⟩

/-- Claim C1 is violated by the sequential path: evidence theorem.  With
two restarts whose single runs have inertias 1/2 (derived seed 0) and 2
(derived seed 1), the `n_jobs == 1` branch of `Kmeans.fit` returns
inertia 2 — the last restart — although the non-selected restart has the
strictly smaller inertia 1/2; the parallel branch returns 1/2 as the
claim demands. -/
theorem C1_sequential_restart_selects_last :
    (kmeansFit demoMean demoDist demoInitC 2 100 (some 0) InitKind.random
        2 1 (1 / 10000) 99 demoX none).inertia = 2 ∧
      (fitSingle demoMean demoDist demoInitC demoX none 2 InitKind.random
        (some ((npRandint (npSeed 0) 2).getD 0 0)) 100
        (1 / 10000)).inertia = 1 / 2 ∧
      (kmeansFit demoMean demoDist demoInitC 2 100 (some 0)
        InitKind.random 2 2 (1 / 10000) 99 demoX none).inertia = 1 / 2 := by
  refine ⟨?_, ?_, ?_⟩ <;> with_unfolding_all rfl

/-! ### Lemmas: the Potato round -/

theorem getD_map_range {α : Type} (f : ℕ → α) (n i : ℕ) (d : α)
    (h : i < n) : ((List.range n).map f).getD i d = f i := by
  rw [List.getD_eq_getElem _ _ (by simpa using h)]
  simp

theorem find_zip_eq_none {β : Type} (ix : List ℕ) (z : List β) (i : ℕ)
    (h : i ∉ ix) : (ix.zip z).find? (fun p => p.1 == i) = none := by
  rw [List.find?_eq_none]
  intro p hp hbeq
  obtain ⟨a, b⟩ := p
  have ha : a ∈ ix := (List.of_mem_zip hp).1
  have : a = i := by simpa using hbeq
  exact h (this ▸ ha)

theorem potatoRound_length (cF : List Mat → Mat) (ldF : Mat → Mat → ℚ)
    (stdF : List ℚ → ℚ) (thr : ℚ) (X : List Mat) (y : List ℚ) :
    (potatoRound cF ldF stdF thr X y).length = X.length := by
  simp [potatoRound, potatoRoundD]

theorem potatoRound_zero (cF : List Mat → Mat) (ldF : Mat → Mat → ℚ)
    (stdF : List ℚ → ℚ) (thr : ℚ) (X : List Mat) (y : List ℚ) (i : ℕ)
    (h : y.getD i 0 = 0) :
    (potatoRound cF ldF stdF thr X y).getD i 0 = 0 := by
  by_cases hi : i < X.length
  · simp only [potatoRound, potatoRoundD]
    rw [getD_map_range _ _ _ _ hi]
    have hni : i ∉ (List.range X.length).filter
        (fun j => decide (y.getD j 0 = 1)) := by
      intro hmem
      have h1 : y.getD i 0 = 1 := by
        have := (List.mem_filter.mp hmem).2
        simpa using this
      rw [h] at h1
      exact zero_ne_one h1
    rw [find_zip_eq_none _ _ _ hni]
  · have hlen : (potatoRound cF ldF stdF thr X y).length ≤ i := by
      rw [potatoRound_length]
      omega
    rw [List.getD_eq_default _ _ hlen]

/-! ### Claims about the Potato -/

/-- Claim C3: within one `Potato.fit` call, rejection is permanent and the
mask keeps its size: at every round of the loop the mask has length equal
to the number of trials, and any trial whose acceptance bit is 0 at the
start of a round still has bit 0 at the end of that round (only
currently-accepted trials are re-scored). -/
theorem C3_rejection_permanent (cF : List Mat → Mat)
    (ldF : Mat → Mat → ℚ) (stdF : List ℚ → ℚ) (thr : ℚ) (X : List Mat)
    (k i : ℕ)
    (h : ((potatoRound cF ldF stdF thr X)^[k]
      (List.replicate X.length 1)).getD i 0 = 0) :
    ((potatoRound cF ldF stdF thr X)^[k]
        (List.replicate X.length 1)).length = X.length ∧
      ((potatoRound cF ldF stdF thr X)^[k + 1]
        (List.replicate X.length 1)).getD i 0 = 0 := by
  constructor
  · cases k with
    | zero => simp
    | succ n =>
      rw [Function.iterate_succ_apply']
      exact potatoRound_length ..
  · rw [Function.iterate_succ_apply']
    exact potatoRound_zero _ _ _ _ _ _ i h

/-- Witness for C3 at a concrete input: one 1×1 trial, constant
log-distance 7, round 0, out-of-range trial index 5 (whose bit reads 0). -/
theorem C3_rejection_permanent_witness :
    ((potatoRound demoCf demoLd7 demoStd 3 [[[1]]])^[0]
        (List.replicate ([[[1]]] : List Mat).length 1)).getD 5 0 = 0 ∧
      (((potatoRound demoCf demoLd7 demoStd 3 [[[1]]])^[0]
          (List.replicate ([[[1]]] : List Mat).length 1)).length =
            ([[[1]]] : List Mat).length ∧
        ((potatoRound demoCf demoLd7 demoStd 3 [[[1]]])^[0 + 1]
          (List.replicate ([[[1]]] : List Mat).length 1)).getD 5 0 = 0) :=
  ⟨by with_unfolding_all rfl,
    C3_rejection_permanent demoCf demoLd7 demoStd 3 [[[1]]] 0 5
      (by with_unfolding_all rfl)⟩

/-- Claim C4 is violated: evidence theorem.  On the degenerate input of
three identical trials (log-distances all equal, so the standard
deviation is 0), `Potato.fit` neither raises a DegenerateInput error nor
returns a flagged non-result: it returns an ordinary state whose stored
`_std` is 0, having silently computed the z-scores `(d - _mean) / 0`. -/
theorem C4_zero_std_no_error :
    potatoFit demoCf demoLd5 qvar 3 100 degX none =
        Except.ok ⟨5, 0, [[2]], some [1, 1, 1]⟩ ∧
      qvar [5, 5, 5] = 0 := by
  constructor <;> with_unfolding_all rfl

theorem potatoGo_some_isOk (cF : List Mat → Mat) (ldF : Mat → Mat → ℚ)
    (stdF : List ℚ → ℚ) (thr : ℚ) (X : List Mat) :
    ∀ (n : ℕ) (m s : ℚ) (C : Mat) (yOld : List ℚ),
    exceptIsOk (potatoGo cF ldF stdF thr X n ⟨m, s, C, some yOld⟩) =
      true := by
  intro n
  induction n with
  | zero => intro m s C yOld; rfl
  | succ k ih =>
    intro m s C yOld
    simp only [potatoGo]
    split
    · rfl
    · exact ih _ _ _ _

/-- Counterexample to claim C10 as stated: with `n_iter_max = 0` the
loop body never runs, `y_old` is never read, and a `fit` call whose `y`
argument is not `None` completes normally — no undefined-variable error
is raised. -/
theorem C10_zero_iter_counterexample :
    potatoFit demoCf demoLd5 qvar 3 0 degX (some [1]) =
        Except.ok ⟨0, 0, [], none⟩ ∧
      potatoFit demoCf demoLd5 qvar 3 0 degX (some [1]) ≠
        Except.error PyError.unboundLocal := by
  constructor
  · rfl
  · intro hcontra
    have h0 : potatoFit demoCf demoLd5 qvar 3 0 degX (some [1]) =
        Except.ok ⟨0, 0, [], none⟩ := rfl
    rw [h0] at hcontra
    exact Except.noConfusion hcontra

/-- Claim C10 as amended: any `Potato.fit` call whose label argument `y`
is not `None` and whose `n_iter_max` is at least 1 reads the loop mask
`y_old` before any assignment to it on the first pass of the loop body
(the all-accepted initialisation is guarded by `if y is None`) and so
fails with `UnboundLocalError`; with `y = None`, `fit` completes
normally for every `n_iter_max`.  With `y` not `None` and
`n_iter_max = 0` the loop body never runs and `fit` also returns
normally — the counterexample above. -/
theorem C10_y_not_none_unbound (cF : List Mat → Mat)
    (ldF : Mat → Mat → ℚ) (stdF : List ℚ → ℚ) (thr : ℚ) (nIterMax : ℕ)
    (X : List Mat) (y : Option (List ℚ)) (h : y ≠ none)
    (hn : 1 ≤ nIterMax) :
    potatoFit cF ldF stdF thr nIterMax X y =
        Except.error PyError.unboundLocal ∧
      exceptIsOk (potatoFit cF ldF stdF thr nIterMax X none) = true := by
  constructor
  · obtain ⟨n, rfl⟩ : ∃ n, nIterMax = n + 1 := ⟨nIterMax - 1, by omega⟩
    cases y with
    | none => exact absurd rfl h
    | some ys => rfl
  · exact potatoGo_some_isOk cF ldF stdF thr X nIterMax 0 0 []
      (List.replicate X.length 1)

/-- Witness for the amended C10 at a concrete input: `y = some [1]`,
`n_iter_max = 100`. -/
theorem C10_y_not_none_unbound_witness :
    ((some [1] ≠ (none : Option (List ℚ))) ∧ 1 ≤ 100) ∧
      (potatoFit demoCf demoLd5 qvar 3 100 degX (some [1]) =
          Except.error PyError.unboundLocal ∧
        exceptIsOk (potatoFit demoCf demoLd5 qvar 3 100 degX none) =
          true) :=
  ⟨⟨by decide, by decide⟩,
    C10_y_not_none_unbound demoCf demoLd5 qvar 3 100 degX (some [1])
      (by decide) (by decide)⟩

end PyRiemann
